import Mathlib

/-!
Verification of `script.py` (line-by-line commits to a GitHub repository via
the Contents API).  The Python source is shallowly embedded: text is
`List Char`, floating-point durations are idealised as `ℚ`, the remote
Contents API is an explicit environment (a fetch outcome and a stream of
write responses), and `random.uniform lo hi` is modelled as the affine map
`t ↦ lo + (hi - lo) * t` over a parameter `t ∈ [0, 1]`.  The regex
character classes `\s` and `\d` are embedded as their ASCII parts, used
consistently on both the parser and the grammar side.
-/

namespace CheatingActivity

/-- ASCII whitespace, the ASCII part of the regex class `\s` and of
`str.strip` / `str.isspace`. -/
def isPySpace (c : Char) : Bool :=
  c == ' ' || c == '\t' || c == '\n' || c == '\r' || c == '\x0b' || c == '\x0c'

/-- A character for which `isPySpace` holds is one of the six ASCII
whitespace characters. -/
theorem isPySpace_cases {c : Char} (h : isPySpace c = true) :
    c = ' ' ∨ c = '\t' ∨ c = '\n' ∨ c = '\r' ∨ c = '\x0b' ∨ c = '\x0c' := by
  simp [isPySpace] at h
  tauto

theorem space_not_digit {c : Char} (h : isPySpace c = true) : c.isDigit = false := by
  rcases isPySpace_cases h with h | h | h | h | h | h <;> subst h <;> decide

theorem digit_not_space {c : Char} (h : c.isDigit = true) : isPySpace c = false := by
  cases hs : isPySpace c
  · rfl
  · rw [space_not_digit hs] at h; cases h

theorem space_ne_dot {c : Char} (h : isPySpace c = true) : c ≠ '.' := by
  rcases isPySpace_cases h with h | h | h | h | h | h <;> subst h <;> decide

theorem space_toLower {c : Char} (h : isPySpace c = true) : c.toLower = c := by
  rcases isPySpace_cases h with h | h | h | h | h | h <;> subst h <;> decide

theorem digit_ne_dot {c : Char} (h : c.isDigit = true) : c ≠ '.' := by
  intro he; subst he; cases h

theorem charOfNat_toNat {n : ℕ} (hv : n.isValidChar) : (Char.ofNat n).toNat = n := by
  unfold Char.ofNat
  rw [dif_pos hv]
  rfl

theorem char_eq_of_toNat {c d : Char} (h : c.toNat = d.toNat) : c = d :=
  Char.eq_of_val_eq (UInt32.ext h)

/-- Inverting `Char.toLower` at a lower-case ASCII letter: the preimage is the
letter itself and its upper-case variant. -/
theorem toLower_inv {c t T : Char} (hTt : T.toNat + 32 = t.toNat)
    (h : c.toLower = t) : c = t ∨ c = T := by
  unfold Char.toLower at h
  by_cases hc : c.toNat ≥ 65 ∧ c.toNat ≤ 90
  · rw [if_pos hc] at h
    right
    have hv : (c.toNat + 32).isValidChar := by left; omega
    have he : c.toNat + 32 = t.toNat := by rw [← charOfNat_toNat hv, h]
    exact char_eq_of_toNat (by omega)
  · rw [if_neg hc] at h; left; exact h

theorem toLower_eq_m {c : Char} (h : c.toLower = 'm') : c = 'm' ∨ c = 'M' :=
  toLower_inv (T := 'M') (by decide) h

theorem toLower_eq_s {c : Char} (h : c.toLower = 's') : c = 's' ∨ c = 'S' :=
  toLower_inv (T := 'S') (by decide) h

theorem toLower_eq_h {c : Char} (h : c.toLower = 'h') : c = 'h' ∨ c = 'H' :=
  toLower_inv (T := 'H') (by decide) h

/-- Facts about a character whose lower-case form is the head of a unit
token: it is not a digit, not whitespace, not a dot. -/
theorem unit_head_facts {c : Char} (h : c.toLower = 'm' ∨ c.toLower = 's' ∨ c.toLower = 'h') :
    c.isDigit = false ∧ isPySpace c = false ∧ c ≠ '.' := by
  rcases h with h | h | h
  · rcases toLower_eq_m h with h | h <;> subst h <;> exact ⟨rfl, rfl, by decide⟩
  · rcases toLower_eq_s h with h | h <;> subst h <;> exact ⟨rfl, rfl, by decide⟩
  · rcases toLower_eq_h h with h | h <;> subst h <;> exact ⟨rfl, rfl, by decide⟩

/-! ### Duration parsing (`parse_duration`, the regex `_DURATION_RE`)

The regex is `^\s*(\d+(?:\.\d+)?)\s*(ms|s|m|h)?\s*$` with `re.IGNORECASE`.
Because each alternative of the unit group can only be followed by
whitespace and the end of the string, the regex is equivalent to the
deterministic scan below (greedy `takeWhile`/`dropWhile` runs never need to
backtrack: a digit can never satisfy the continuation, and the unit
alternation is tested together with its continuation, in the regex's
order). -/

/-- The unit suffixes accepted by `_DURATION_RE`. -/
inductive DUnit
  | ms
  | s
  | m
  | h
deriving DecidableEq

/-- The seconds-per-unit factor table of `parse_duration`; `none` is an
absent suffix, which the source maps to `"s"`. -/
def unitFactor : Option DUnit → ℚ
  | none => 1
  | some DUnit.ms => 1 / 1000
  | some DUnit.s => 1
  | some DUnit.m => 60
  | some DUnit.h => 3600

/-- Decimal value of a digit string (the integer part of `float(...)`). -/
def digitsToNat (ds : List Char) : ℕ :=
  ds.foldl (fun acc c => acc * 10 + (c.toNat - 48)) 0

/-- Value of `float("<ds>.<fd>")` (with `fd = []` meaning no fractional
part), idealised over `ℚ`. -/
def numValue (ds fd : List Char) : ℚ :=
  (digitsToNat ds : ℚ) + (digitsToNat fd : ℚ) / (10 : ℚ) ^ fd.length

def allSpace (l : List Char) : Bool := l.all isPySpace

/-- The optional fractional part `(?:\.\d+)?`: from the text following the
integer digits, extract the fraction digits (if a dot followed by at least
one digit is present) and the remainder. -/
def fracSplit : List Char → List Char × List Char
  | [] => ([], [])
  | c :: rest =>
    if c = '.' then
      if rest.takeWhile Char.isDigit = [] then ([], c :: rest)
      else (rest.takeWhile Char.isDigit, rest.dropWhile Char.isDigit)
    else ([], c :: rest)

/-- The unit group `(ms|s|m|h)?` followed by `\s*$`, applied to the text
after the mid-run whitespace: alternatives are tried in the regex's order,
each together with its (whitespace-only) continuation.  `some u` is a match
with unit `u`; `none` means the overall regex fails. -/
def unitResolve (r : List Char) : Option (Option DUnit) :=
  if (r.map Char.toLower).take 2 = ['m', 's'] ∧ allSpace (r.drop 2) = true then
    some (some DUnit.ms)
  else if (r.map Char.toLower).take 1 = ['s'] ∧ allSpace (r.drop 1) = true then
    some (some DUnit.s)
  else if (r.map Char.toLower).take 1 = ['m'] ∧ allSpace (r.drop 1) = true then
    some (some DUnit.m)
  else if (r.map Char.toLower).take 1 = ['h'] ∧ allSpace (r.drop 1) = true then
    some (some DUnit.h)
  else if allSpace r = true then
    some none
  else
    none

/-- `parse_duration` of the source: match the duration regex and multiply
the numeric value by the unit factor.  A `ValueError` is `none`. -/
def parse_duration (str : List Char) : Option ℚ :=
  if (str.dropWhile isPySpace).takeWhile Char.isDigit = [] then none
  else
    match unitResolve ((fracSplit ((str.dropWhile isPySpace).dropWhile Char.isDigit)).2.dropWhile isPySpace) with
    | none => none
    | some u =>
      some (numValue ((str.dropWhile isPySpace).takeWhile Char.isDigit)
        (fracSplit ((str.dropWhile isPySpace).dropWhile Char.isDigit)).1 * unitFactor u)

/-! ### The duration grammar, stated from the specification

`DurationGrammar s v` says: `s` consists of optional whitespace, a
non-negative integer or decimal literal, optional whitespace, an optional
case-insensitive unit among ms/s/m/h, and optional whitespace; and `v` is
the literal's value times the unit's factor (seconds when absent). -/

/-- The canonical (lower-case) spelling of a unit suffix. -/
def unitChars : DUnit → List Char
  | DUnit.ms => ['m', 's']
  | DUnit.s => ['s']
  | DUnit.m => ['m']
  | DUnit.h => ['h']

/-- `u` spells the optional unit `du`, case-insensitively. -/
def OptUnitToken : Option DUnit → List Char → Prop
  | none, u => u = []
  | some du, u => u.map Char.toLower = unitChars du

/-- The characters of the optional fractional part: nothing, or a dot
followed by the (non-empty) fraction digits. -/
def fracChars (fd : List Char) : List Char := if fd = [] then [] else '.' :: fd

/-- The duration grammar of the specification, together with the value the
specification assigns to a matching string. -/
def DurationGrammar (str : List Char) (v : ℚ) : Prop :=
  ∃ w1 ds fd w2 u w3 du,
    str = w1 ++ (ds ++ (fracChars fd ++ (w2 ++ (u ++ w3)))) ∧
    allSpace w1 = true ∧ allSpace w2 = true ∧ allSpace w3 = true ∧
    ds ≠ [] ∧ ds.all Char.isDigit = true ∧ fd.all Char.isDigit = true ∧
    OptUnitToken du u ∧
    v = numValue ds fd * unitFactor du

/-! ### List-scanning helper lemmas -/

theorem takeWhile_cons_false {p : Char → Bool} {a : Char} {l : List Char} (h : p a = false) :
    (a :: l).takeWhile p = [] := by
  simp [List.takeWhile_cons, h]

theorem dropWhile_cons_false {p : Char → Bool} {a : Char} {l : List Char} (h : p a = false) :
    (a :: l).dropWhile p = a :: l := by
  simp [List.dropWhile_cons, h]

theorem takeWhile_all_append {p : Char → Bool} {l r : List Char} (h : l.all p = true) :
    (l ++ r).takeWhile p = l ++ r.takeWhile p := by
  induction l with
  | nil => rfl
  | cons a t ih =>
    rw [List.all_cons, Bool.and_eq_true] at h
    rw [List.cons_append, List.takeWhile_cons, if_pos h.1, ih h.2, List.cons_append]

theorem dropWhile_all_append {p : Char → Bool} {l r : List Char} (h : l.all p = true) :
    (l ++ r).dropWhile p = r.dropWhile p := by
  induction l with
  | nil => rfl
  | cons a t ih =>
    rw [List.all_cons, Bool.and_eq_true] at h
    rw [List.cons_append, List.dropWhile_cons, if_pos h.1, ih h.2]

theorem dropWhile_all_nil {p : Char → Bool} {l : List Char} (h : l.all p = true) :
    l.dropWhile p = [] := by
  have h2 := dropWhile_all_append (r := []) h
  simpa using h2

theorem takeWhile_all_self {p : Char → Bool} (l : List Char) :
    (l.takeWhile p).all p = true :=
  List.all_eq_true.2 fun _ hc => List.mem_takeWhile_imp hc

theorem takeWhile_nil_of_head {p : Char → Bool} {l : List Char}
    (h : ∀ c cs, l = c :: cs → p c = false) : l.takeWhile p = [] := by
  cases l with
  | nil => rfl
  | cons a t => exact takeWhile_cons_false (h a t rfl)

theorem dropWhile_self_of_head {p : Char → Bool} {l : List Char}
    (h : ∀ c cs, l = c :: cs → p c = false) : l.dropWhile p = l := by
  cases l with
  | nil => rfl
  | cons a t => exact dropWhile_cons_false (h a t rfl)

/-! ### Facts about the text following the numeric literal -/

/-- Any head character of `w2 ++ (u ++ w3)` is whitespace or the start of a
unit token. -/
theorem rest_head_cases {w2 u w3 : List Char} {du : Option DUnit}
    (hw2 : allSpace w2 = true) (hw3 : allSpace w3 = true) (hu : OptUnitToken du u) :
    ∀ c cs, w2 ++ (u ++ w3) = c :: cs →
      isPySpace c = true ∨ c.toLower = 'm' ∨ c.toLower = 's' ∨ c.toLower = 'h' := by
  intro c cs heq
  cases w2 with
  | cons a t =>
    rw [List.cons_append] at heq
    injection heq with h1 _
    subst h1
    rw [allSpace, List.all_cons, Bool.and_eq_true] at hw2
    exact Or.inl hw2.1
  | nil =>
    rw [List.nil_append] at heq
    cases du with
    | none =>
      have hu' : u = [] := hu
      subst hu'
      rw [List.nil_append] at heq
      subst heq
      rw [allSpace, List.all_cons, Bool.and_eq_true] at hw3
      exact Or.inl hw3.1
    | some d =>
      cases u with
      | nil => cases d <;> simp [OptUnitToken, unitChars] at hu
      | cons a t =>
        rw [List.cons_append] at heq
        injection heq with h1 _
        have hm : (a :: t).map Char.toLower = unitChars d := hu
        rw [List.map_cons] at hm
        rw [← h1]
        cases d <;> (injection hm with h2 _) <;> tauto

theorem rest_head_facts {w2 u w3 : List Char} {du : Option DUnit}
    (hw2 : allSpace w2 = true) (hw3 : allSpace w3 = true) (hu : OptUnitToken du u) :
    ∀ c cs, w2 ++ (u ++ w3) = c :: cs → Char.isDigit c = false ∧ c ≠ '.' := by
  intro c cs heq
  rcases rest_head_cases hw2 hw3 hu c cs heq with h | h
  · exact ⟨space_not_digit h, space_ne_dot h⟩
  · have h2 := unit_head_facts h
    exact ⟨h2.1, h2.2.2⟩

/-! ### `fracSplit` - soundness and computation -/

theorem fracSplit_dot_pos {rest : List Char} (h : rest.takeWhile Char.isDigit ≠ []) :
    fracSplit ('.' :: rest) = (rest.takeWhile Char.isDigit, rest.dropWhile Char.isDigit) := by
  simp [fracSplit, h]

theorem fracSplit_dot_nil {rest : List Char} (h : rest.takeWhile Char.isDigit = []) :
    fracSplit ('.' :: rest) = ([], '.' :: rest) := by
  simp [fracSplit, h]

theorem fracSplit_not_dot {c : Char} {rest : List Char} (h : c ≠ '.') :
    fracSplit (c :: rest) = ([], c :: rest) := by
  simp [fracSplit, h]

/-- `fracSplit` decomposes its input into fraction digits and remainder. -/
theorem fracSplit_sound (r : List Char) :
    r = fracChars (fracSplit r).1 ++ (fracSplit r).2 ∧
      (fracSplit r).1.all Char.isDigit = true := by
  cases r with
  | nil => exact ⟨rfl, rfl⟩
  | cons c rest =>
    by_cases hc : c = '.'
    · subst hc
      by_cases hfs : rest.takeWhile Char.isDigit = []
      · rw [fracSplit_dot_nil hfs]
        exact ⟨by simp [fracChars], rfl⟩
      · rw [fracSplit_dot_pos hfs]
        refine ⟨?_, takeWhile_all_self rest⟩
        rw [fracChars, if_neg hfs]
        conv_lhs => rw [← List.takeWhile_append_dropWhile Char.isDigit rest]
        rw [List.cons_append]
    · rw [fracSplit_not_dot hc]
      exact ⟨by simp [fracChars], rfl⟩

/-- Computation of `fracSplit` on a grammar-shaped input. -/
theorem fracSplit_rest {fd rest : List Char} (hfd : fd.all Char.isDigit = true)
    (hrest : ∀ c cs, rest = c :: cs → Char.isDigit c = false ∧ c ≠ '.') :
    fracSplit (fracChars fd ++ rest) = (fd, rest) := by
  by_cases h : fd = []
  · subst h
    rw [fracChars, if_pos rfl, List.nil_append]
    cases rest with
    | nil => rfl
    | cons c cs =>
      have h2 := hrest c cs rfl
      rw [fracSplit_not_dot h2.2]
  · rw [fracChars, if_neg h, List.cons_append]
    have ht : (fd ++ rest).takeWhile Char.isDigit = fd := by
      rw [takeWhile_all_append hfd,
        takeWhile_nil_of_head (fun c cs hc => (hrest c cs hc).1), List.append_nil]
    have hd : (fd ++ rest).dropWhile Char.isDigit = rest := by
      rw [dropWhile_all_append hfd,
        dropWhile_self_of_head (fun c cs hc => (hrest c cs hc).1)]
    rw [fracSplit_dot_pos (by rw [ht]; exact h), ht, hd]

/-! ### `unitResolve` - soundness and completeness -/

theorem unitResolve_sound {r : List Char} {du : Option DUnit} (h : unitResolve r = some du) :
    ∃ u w3, r = u ++ w3 ∧ OptUnitToken du u ∧ allSpace w3 = true := by
  unfold unitResolve at h
  split_ifs at h with h1 h2 h3 h4 h5
  · cases h
    obtain ⟨hms, hsp⟩ := h1
    have hlen : 2 ≤ r.length := by
      have h2 := congrArg List.length hms
      simp [List.length_take] at h2
      omega
    match r, hlen with
    | a :: b :: t, _ =>
      rw [List.map_cons, List.map_cons, List.take_succ_cons, List.take_succ_cons,
        List.take_zero] at hms
      injection hms with hm1 hms
      injection hms with hm2 _
      exact ⟨[a, b], t, rfl, by simp [OptUnitToken, unitChars, hm1, hm2], by simpa using hsp⟩
  · cases h
    obtain ⟨hs, hsp⟩ := h2
    have hlen : 1 ≤ r.length := by
      have h2 := congrArg List.length hs
      simp [List.length_take] at h2
      omega
    match r, hlen with
    | a :: t, _ =>
      rw [List.map_cons, List.take_succ_cons, List.take_zero] at hs
      injection hs with hs1 _
      exact ⟨[a], t, rfl, by simp [OptUnitToken, unitChars, hs1], by simpa using hsp⟩
  · cases h
    obtain ⟨hm, hsp⟩ := h3
    have hlen : 1 ≤ r.length := by
      have h2 := congrArg List.length hm
      simp [List.length_take] at h2
      omega
    match r, hlen with
    | a :: t, _ =>
      rw [List.map_cons, List.take_succ_cons, List.take_zero] at hm
      injection hm with hm1 _
      exact ⟨[a], t, rfl, by simp [OptUnitToken, unitChars, hm1], by simpa using hsp⟩
  · cases h
    obtain ⟨hh, hsp⟩ := h4
    have hlen : 1 ≤ r.length := by
      have h2 := congrArg List.length hh
      simp [List.length_take] at h2
      omega
    match r, hlen with
    | a :: t, _ =>
      rw [List.map_cons, List.take_succ_cons, List.take_zero] at hh
      injection hh with hh1 _
      exact ⟨[a], t, rfl, by simp [OptUnitToken, unitChars, hh1], by simpa using hsp⟩
  · cases h
    exact ⟨[], r, rfl, rfl, h5⟩

/-- On an all whitespace list, `take` of the lower-cased text never produces
a letter-headed list. -/
theorem space_take_ne {w : List Char} (hw : allSpace w = true) (k : ℕ) {c : Char}
    (hc : isPySpace c = false) (cs : List Char) :
    (w.map Char.toLower).take (k + 1) ≠ c :: cs := by
  intro he
  cases w with
  | nil => simp at he
  | cons a t =>
    rw [allSpace, List.all_cons, Bool.and_eq_true] at hw
    rw [List.map_cons, List.take_succ_cons] at he
    injection he with h1 _
    rw [space_toLower hw.1] at h1
    subst h1
    rw [hw.1] at hc
    cases hc

theorem unitResolve_complete {u w3 : List Char} {du : Option DUnit}
    (hu : OptUnitToken du u) (hw3 : allSpace w3 = true) :
    unitResolve (u ++ w3) = some du := by
  cases du with
  | none =>
    have hu' : u = [] := hu
    subst hu'
    rw [List.nil_append]
    unfold unitResolve
    rw [if_neg fun hand => space_take_ne hw3 1 (by decide) ['s'] hand.1,
      if_neg fun hand => space_take_ne hw3 0 (by decide) [] hand.1,
      if_neg fun hand => space_take_ne hw3 0 (by decide) [] hand.1,
      if_neg fun hand => space_take_ne hw3 0 (by decide) [] hand.1,
      if_pos hw3]
  | some d =>
    cases d with
    | ms =>
      have hu' : u.map Char.toLower = ['m', 's'] := hu
      have hlen : u.length = 2 := by
        have h2 := congrArg List.length hu'
        simpa using h2
      match u, hlen, hu' with
      | [a, b], _, hu' =>
        rw [List.map_cons, List.map_cons, List.map_nil] at hu'
        injection hu' with hm1 hu'
        injection hu' with hm2 _
        unfold unitResolve
        rw [List.cons_append, List.cons_append, List.nil_append]
        rw [if_pos ⟨by simp [hm1, hm2], by simpa using hw3⟩]
    | s =>
      have hu' : u.map Char.toLower = ['s'] := hu
      have hlen : u.length = 1 := by
        have h2 := congrArg List.length hu'
        simpa using h2
      match u, hlen, hu' with
      | [a], _, hu' =>
        rw [List.map_cons, List.map_nil] at hu'
        injection hu' with hs1 _
        unfold unitResolve
        rw [List.cons_append, List.nil_append]
        rw [if_neg fun hand => by
          have h2 := hand.1
          rw [List.map_cons, List.take_succ_cons] at h2
          injection h2 with h3 _
          rw [hs1] at h3
          cases h3]
        rw [if_pos ⟨by simp [hs1], by simpa using hw3⟩]
    | m =>
      have hu' : u.map Char.toLower = ['m'] := hu
      have hlen : u.length = 1 := by
        have h2 := congrArg List.length hu'
        simpa using h2
      match u, hlen, hu' with
      | [a], _, hu' =>
        rw [List.map_cons, List.map_nil] at hu'
        injection hu' with hm1 _
        unfold unitResolve
        rw [List.cons_append, List.nil_append]
        rw [if_neg fun hand => by
          have h2 := hand.1
          rw [List.map_cons, List.take_succ_cons] at h2
          injection h2 with h3 h4
          exact space_take_ne hw3 0 (by decide) [] h4]
        rw [if_neg fun hand => by
          have h2 := hand.1
          rw [List.map_cons, List.take_succ_cons, List.take_zero] at h2
          injection h2 with h3 _
          rw [hm1] at h3
          cases h3]
        rw [if_pos ⟨by simp [hm1], by simpa using hw3⟩]
    | h =>
      have hu' : u.map Char.toLower = ['h'] := hu
      have hlen : u.length = 1 := by
        have h2 := congrArg List.length hu'
        simpa using h2
      match u, hlen, hu' with
      | [a], _, hu' =>
        rw [List.map_cons, List.map_nil] at hu'
        injection hu' with hh1 _
        unfold unitResolve
        rw [List.cons_append, List.nil_append]
        rw [if_neg fun hand => by
          have h2 := hand.1
          rw [List.map_cons, List.take_succ_cons] at h2
          injection h2 with h3 _
          rw [hh1] at h3
          cases h3]
        rw [if_neg fun hand => by
          have h2 := hand.1
          rw [List.map_cons, List.take_succ_cons, List.take_zero] at h2
          injection h2 with h3 _
          rw [hh1] at h3
          cases h3]
        rw [if_neg fun hand => by
          have h2 := hand.1
          rw [List.map_cons, List.take_succ_cons, List.take_zero] at h2
          injection h2 with h3 _
          rw [hh1] at h3
          cases h3]
        rw [if_pos ⟨by simp [hh1], by simpa using hw3⟩]

end CheatingActivity

namespace CheatingActivity

/-! ### `parse_duration` against the grammar -/

/-- Completeness: on every string matching the grammar, `parse_duration`
returns the grammar's value. -/
theorem parse_duration_complete {w1 ds fd w2 u w3 : List Char} {du : Option DUnit}
    (hw1 : allSpace w1 = true) (hw2 : allSpace w2 = true) (hw3 : allSpace w3 = true)
    (hds : ds ≠ []) (hdsd : ds.all Char.isDigit = true) (hfd : fd.all Char.isDigit = true)
    (hu : OptUnitToken du u) :
    parse_duration (w1 ++ (ds ++ (fracChars fd ++ (w2 ++ (u ++ w3)))))
      = some (numValue ds fd * unitFactor du) := by
  obtain ⟨d, ds', rfl⟩ : ∃ d ds', ds = d :: ds' := by
    cases ds with
    | nil => exact absurd rfl hds
    | cons d t => exact ⟨d, t, rfl⟩
  have hdd : Char.isDigit d = true := by
    rw [List.all_cons, Bool.and_eq_true] at hdsd
    exact hdsd.1
  have hdsd' : (d :: ds').all Char.isDigit = true := by
    rw [List.all_cons, Bool.and_eq_true] at hdsd ⊢
    exact hdsd
  have hRd : ∀ c cs, w2 ++ (u ++ w3) = c :: cs → Char.isDigit c = false ∧ c ≠ '.' :=
    rest_head_facts hw2 hw3 hu
  have hTd : ∀ c cs, fracChars fd ++ (w2 ++ (u ++ w3)) = c :: cs → Char.isDigit c = false := by
    intro c cs heq
    by_cases hf : fd = []
    · subst hf
      rw [fracChars, if_pos rfl, List.nil_append] at heq
      exact (hRd c cs heq).1
    · rw [fracChars, if_neg hf, List.cons_append] at heq
      injection heq with h1 _
      rw [← h1]
      decide
  have e1 : (w1 ++ ((d :: ds') ++ (fracChars fd ++ (w2 ++ (u ++ w3))))).dropWhile isPySpace
      = (d :: ds') ++ (fracChars fd ++ (w2 ++ (u ++ w3))) := by
    rw [dropWhile_all_append hw1, List.cons_append,
      dropWhile_cons_false (digit_not_space hdd)]
  have e2 : ((d :: ds') ++ (fracChars fd ++ (w2 ++ (u ++ w3)))).takeWhile Char.isDigit
      = d :: ds' := by
    rw [takeWhile_all_append hdsd', takeWhile_nil_of_head hTd, List.append_nil]
  have e3 : ((d :: ds') ++ (fracChars fd ++ (w2 ++ (u ++ w3)))).dropWhile Char.isDigit
      = fracChars fd ++ (w2 ++ (u ++ w3)) := by
    rw [dropWhile_all_append hdsd', dropWhile_self_of_head hTd]
  have e4 : fracSplit (fracChars fd ++ (w2 ++ (u ++ w3))) = (fd, w2 ++ (u ++ w3)) :=
    fracSplit_rest hfd hRd
  have e6 : unitResolve ((fracSplit
      (((w1 ++ ((d :: ds') ++ (fracChars fd ++ (w2 ++ (u ++ w3))))).dropWhile
        isPySpace).dropWhile Char.isDigit)).2.dropWhile isPySpace) = some du := by
    rw [e1, e3, e4]
    show unitResolve ((w2 ++ (u ++ w3)).dropWhile isPySpace) = some du
    rw [dropWhile_all_append hw2]
    cases du with
    | none =>
      have hu' : u = [] := hu
      subst hu'
      rw [List.nil_append, dropWhile_all_nil hw3]
      decide
    | some dd =>
      have hdrop : (u ++ w3).dropWhile isPySpace = u ++ w3 := by
        cases u with
        | nil => cases dd <;> simp [OptUnitToken, unitChars] at hu
        | cons a t =>
          have hm : (a :: t).map Char.toLower = unitChars dd := hu
          rw [List.map_cons] at hm
          have hhead : a.toLower = 'm' ∨ a.toLower = 's' ∨ a.toLower = 'h' := by
            cases dd <;> (injection hm with h2 _) <;> tauto
          rw [List.cons_append, dropWhile_cons_false (unit_head_facts hhead).2.1]
      rw [hdrop]
      exact unitResolve_complete hu hw3
  unfold parse_duration
  rw [e6, e1, e2, e3, e4, if_neg (by simp : ¬(d :: ds' = []))]

/-- Soundness: every successful parse exhibits a grammar decomposition with
the returned value. -/
theorem parse_duration_sound {str : List Char} {v : ℚ} (h : parse_duration str = some v) :
    DurationGrammar str v := by
  unfold parse_duration at h
  by_cases hds : (str.dropWhile isPySpace).takeWhile Char.isDigit = []
  · rw [if_pos hds] at h
    cases h
  · rw [if_neg hds] at h
    cases hur : unitResolve ((fracSplit
        ((str.dropWhile isPySpace).dropWhile Char.isDigit)).2.dropWhile isPySpace) with
    | none =>
      rw [hur] at h
      cases h
    | some du =>
      rw [hur] at h
      injection h with hv
      obtain ⟨u, w3, hr3, hu, hw3⟩ := unitResolve_sound hur
      refine ⟨str.takeWhile isPySpace,
        (str.dropWhile isPySpace).takeWhile Char.isDigit,
        (fracSplit ((str.dropWhile isPySpace).dropWhile Char.isDigit)).1,
        ((fracSplit ((str.dropWhile isPySpace).dropWhile Char.isDigit)).2).takeWhile isPySpace,
        u, w3, du, ?_, takeWhile_all_self str, takeWhile_all_self _, hw3, hds,
        takeWhile_all_self _, (fracSplit_sound _).2, hu, hv.symm⟩
      rw [← hr3, List.takeWhile_append_dropWhile, ← (fracSplit_sound
        ((str.dropWhile isPySpace).dropWhile Char.isDigit)).1,
        List.takeWhile_append_dropWhile, List.takeWhile_append_dropWhile]

end CheatingActivity

namespace CheatingActivity

/-- C2: for every string matching the duration grammar, `parse_duration`
returns the literal's value times the unit factor (0.001 for ms, 1 for s or
no suffix, 60 for m, 3600 for h); for every string not matching the
grammar, `parse_duration` fails (returns no value).  Stated as: a parse
returning `v` is exactly a grammar match with value `v`. -/
theorem parse_duration_matches_grammar :
    ∀ (str : List Char) (v : ℚ), parse_duration str = some v ↔ DurationGrammar str v := by
  intro str v
  constructor
  · exact parse_duration_sound
  · rintro ⟨w1, ds, fd, w2, u, w3, du, rfl, hw1, hw2, hw3, hds, hdsd, hfd, hu, rfl⟩
    exact parse_duration_complete hw1 hw2 hw3 hds hdsd hfd hu

/-- Every value produced by `parse_duration` is non-negative (the regex
admits no sign character). -/
theorem parse_duration_nonneg {str : List Char} {v : ℚ} (h : parse_duration str = some v) :
    0 ≤ v := by
  unfold parse_duration at h
  by_cases hds : (str.dropWhile isPySpace).takeWhile Char.isDigit = []
  · rw [if_pos hds] at h
    cases h
  · rw [if_neg hds] at h
    cases hur : unitResolve ((fracSplit
        ((str.dropWhile isPySpace).dropWhile Char.isDigit)).2.dropWhile isPySpace) with
    | none =>
      rw [hur] at h
      cases h
    | some du =>
      rw [hur] at h
      injection h with hv
      rw [← hv]
      have h1 : 0 ≤ numValue ((str.dropWhile isPySpace).takeWhile Char.isDigit)
          (fracSplit ((str.dropWhile isPySpace).dropWhile Char.isDigit)).1 := by
        unfold numValue
        positivity
      have h2 : 0 ≤ unitFactor du := by
        cases du with
        | none => norm_num [unitFactor]
        | some d => cases d <;> norm_num [unitFactor]
      exact mul_nonneg h1 h2

/-! ### The delay sampler (`build_delay_getter`)

The generator closures of the source are modelled as a resolved-bounds
value together with `delaySample`; `random.uniform lo hi` is modelled as
`lo + (hi - lo) * t` for a sample parameter `t ∈ [0, 1]`. -/

/-- The resolved delay bounds of `build_delay_getter`: a fixed value or a
`lo`-`hi` range. -/
inductive DelayGetter
  | fixed (v : ℚ)
  | range (lo hi : ℚ)
deriving DecidableEq

/-- The left half of `spec.split("-", 1)`. -/
def splitLeft (spec : List Char) : List Char := spec.takeWhile (fun c => c != '-')

/-- The right half of `spec.split("-", 1)`. -/
def splitRight (spec : List Char) : List Char := (spec.dropWhile (fun c => c != '-')).tail

/-- `build_delay_getter` of the source: a spec containing `-` resolves to a
range with the bounds ordered and the lower bound clamped at zero; any
other spec resolves to a fixed delay clamped at zero.  A `ValueError` from
`parse_duration` is `none` (the source exits with code 2 on it). -/
def build_delay_getter (spec : List Char) : Option DelayGetter :=
  if '-' ∈ spec then
    match parse_duration (splitLeft spec), parse_duration (splitRight spec) with
    | some a, some b =>
      some (DelayGetter.range (max 0 (if a ≤ b then a else b)) (if a ≤ b then b else a))
    | _, _ => none
  else
    match parse_duration spec with
    | some v => some (DelayGetter.fixed (max 0 v))
    | none => none

/-- One invocation of the generator returned by `build_delay_getter`: the
fixed value, or `random.uniform lo hi` modelled by the sample parameter
`t ∈ [0, 1]`. -/
def delaySample : DelayGetter → ℚ → ℚ
  | DelayGetter.fixed v, _ => v
  | DelayGetter.range lo hi, t => lo + (hi - lo) * t

end CheatingActivity

namespace CheatingActivity

/-- C3: for a range spec `"a-b"` whose halves parse as durations `a` and
`b`, the resolved bounds are `(min a b, max a b)` with each bound clamped
at zero, and every generated sample lies within the bounds; for a fixed
spec, every invocation returns exactly the parsed value. -/
theorem build_delay_getter_bounds :
    (∀ (spec : List Char) (a b : ℚ), '-' ∈ spec →
      parse_duration (splitLeft spec) = some a →
      parse_duration (splitRight spec) = some b →
      build_delay_getter spec
          = some (DelayGetter.range (max 0 (min a b)) (max 0 (max a b))) ∧
        ∀ t : ℚ, 0 ≤ t → t ≤ 1 →
          max 0 (min a b)
              ≤ delaySample (DelayGetter.range (max 0 (min a b)) (max 0 (max a b))) t ∧
            delaySample (DelayGetter.range (max 0 (min a b)) (max 0 (max a b))) t
              ≤ max 0 (max a b)) ∧
    (∀ (spec : List Char) (v : ℚ), ¬ '-' ∈ spec →
      parse_duration spec = some v →
      build_delay_getter spec = some (DelayGetter.fixed v) ∧
        ∀ t : ℚ, delaySample (DelayGetter.fixed v) t = v) := by
  constructor
  · intro spec a b hmem hpa hpb
    have hb := parse_duration_nonneg hpb
    refine ⟨?_, ?_⟩
    · unfold build_delay_getter
      rw [if_pos hmem, hpa, hpb]
      have h1 : (if a ≤ b then a else b) = min a b := (min_def a b).symm
      have h2 : (if a ≤ b then b else a) = max a b := (max_def a b).symm
      show some (DelayGetter.range (max 0 (if a ≤ b then a else b)) (if a ≤ b then b else a))
        = some (DelayGetter.range (max 0 (min a b)) (max 0 (max a b)))
      rw [h1, h2, max_eq_right (le_trans hb (le_max_right a b))]
    · intro t ht0 ht1
      have hlh : max 0 (min a b) ≤ max 0 (max a b) := max_le_max le_rfl min_le_max
      constructor
      · show max 0 (min a b) ≤ max 0 (min a b) + (max 0 (max a b) - max 0 (min a b)) * t
        nlinarith
      · show max 0 (min a b) + (max 0 (max a b) - max 0 (min a b)) * t ≤ max 0 (max a b)
        nlinarith
  · intro spec v hmem hp
    have hv := parse_duration_nonneg hp
    refine ⟨?_, fun t => rfl⟩
    unfold build_delay_getter
    rw [if_neg hmem, hp]
    show some (DelayGetter.fixed (max 0 v)) = some (DelayGetter.fixed v)
    rw [max_eq_right hv]

/-! ### The commit-loop orchestrator (`main`)

Text is `List Char`.  The remote Contents API is an environment: a fetch
outcome (the initial `get_file`) and a stream of write responses (the
response to the n-th `put_file` call, indexed by the number of prior
successful writes).  A `KeyboardInterrupt` is modelled as arriving at an
iteration boundary, named by the 1-based index of the iteration it stops. -/

/-- `str.splitlines()` of Python, over the ASCII line boundaries `\n`,
`\r` and `\r\n` (the source never produces the rarer Unicode boundaries):
no trailing empty line is produced for text ending in a line break. -/
def pySplitlines : List Char → List (List Char) :=
  go []
where
  /-- `acc` is the reversed current line. -/
  go (acc : List Char) : List Char → List (List Char)
    | [] => if acc = [] then [] else [acc.reverse]
    | '\r' :: '\n' :: rest => acc.reverse :: go [] rest
    | c :: rest =>
      if c = '\n' ∨ c = '\r' then acc.reverse :: go [] rest
      else go (c :: acc) rest

/-- `ln.strip() != ""` of the skip-empty filter: the line has a
non-whitespace character. -/
def stripNonEmpty (ln : List Char) : Bool := ln.any (fun c => !(isPySpace c))

/-- The start-index step of `main`: `lines = lines[start_index:]` is applied
only when `start_index > 0`. -/
def applyStart (i : ℤ) (ls : List (List Char)) : List (List Char) :=
  if i > 0 then ls.drop i.toNat else ls

/-- `shorten` of the source: strip, collapse newlines to spaces, truncate
to 60 characters with an ellipsis. -/
def shorten (s : List Char) : List Char :=
  let t := ((s.dropWhile isPySpace).reverse.dropWhile isPySpace).reverse.map
    (fun c => if c = '\n' then ' ' else c)
  if t.length ≤ 60 then t else t.take 59 ++ ['…']

/-- Python truthiness of an optional string: `None` and `""` are falsy. -/
def optTruthy : Option (List Char) → Bool
  | none => false
  | some s => !s.isEmpty

/-- The JSON body assembled by `put_file`: the `sha` key is present only
for a truthy sha argument, the `committer` key only when both name and
email are truthy. -/
structure PutPayload where
  message : List Char
  content : List Char
  branch : List Char
  shaField : Option (List Char)
  committer : Option (List Char × List Char)
deriving DecidableEq

/-- `put_file` of the source, as the request body it submits (the HTTP
response is supplied separately by the environment). -/
def put_file (message text branch : List Char)
    (sha cName cEmail : Option (List Char)) : PutPayload :=
  { message := message
    content := text
    branch := branch
    shaField := if optTruthy sha then sha else none
    committer :=
      if optTruthy cName ∧ optTruthy cEmail then
        some (cName.getD [], cEmail.getD [])
      else none }

/-- A response to a `put_file` call: the HTTP status code and the value of
`resp["content"]["sha"]` when present. -/
structure RemoteResp where
  code : ℕ
  contentSha : Option (List Char)
deriving DecidableEq

/-- `code in (200, 201)`, the success test of the write loop. -/
def respOk (r : RemoteResp) : Bool := r.code == 200 || r.code == 201

/-- The outcome of the initial `get_file`: an exception, a 404, or the
decoded text with its sha. -/
inductive FetchOutcome
  | fetchErr
  | notFound
  | found (text : List Char) (sha : Option (List Char))
deriving DecidableEq

/-- `current_text.endswith("\n")`. -/
def endsNl (s : List Char) : Bool := s.getLast? == some '\n'

/-- Lines 169-170 of the source: append a line terminator when the buffer
is non-empty and does not end with one. -/
def ensureNl (s : List Char) : List Char :=
  if ¬ s.isEmpty ∧ ¬ endsNl s = true then s ++ ['\n'] else s

/-- One loop iteration's buffer states: after the ensure step (immediately
before the append) and after the append. -/
structure IterRec where
  pre : List Char
  buf : List Char
  msg : List Char
deriving DecidableEq

/-- What a run of the commit loop did. -/
structure RunResult where
  writes : List PutPayload
  iters : List IterRec
  dryLogs : List (List Char)
  sleeps : ℕ
  committed : ℕ
  finalSha : Option (List Char)
  exitCode : ℕ
deriving DecidableEq

/-- The loop-invariant configuration of the `for` loop of `main`. -/
structure LoopCfg where
  dryRun : Bool
  pref : List Char
  branch : List Char
  cName : Option (List Char)
  cEmail : Option (List Char)
  remote : ℕ → RemoteResp
  intr : Option ℕ
  total : ℕ

/-- The `for idx, line in enumerate(lines, 1)` loop of `main` (lines
167-199 of the source).  Arguments after the configuration: the 1-based
index of the next line, the remaining lines, `current_text`, `file_sha`,
and `committed`.  The n-th write receives `cfg.remote n` (indexed by the
number of prior successful writes); a write whose status is not 200/201
prints the error and exits with code 1; a `KeyboardInterrupt` at the start
of iteration `i` (modelling cancellation during the preceding sleep or
call) exits with code 130. -/
def commitLoop (cfg : LoopCfg) : ℕ → List (List Char) → List Char →
    Option (List Char) → ℕ → RunResult
  | _, [], _, sha, committed =>
    { writes := [], iters := [], dryLogs := [], sleeps := 0,
      committed := committed, finalSha := sha, exitCode := 0 }
  | idx, line :: rest, buf, sha, committed =>
    if cfg.intr = some idx then
      { writes := [], iters := [], dryLogs := [], sleeps := 0,
        committed := committed, finalSha := sha, exitCode := 130 }
    else
      let pre := ensureNl buf
      let cur := pre ++ line ++ ['\n']
      let msg := cfg.pref ++ [' '] ++ Nat.toDigits 10 idx ++ ['/']
        ++ Nat.toDigits 10 cfg.total ++ [':', ' '] ++ shorten line
      let rec0 : IterRec := { pre := pre, buf := cur, msg := msg }
      if cfg.dryRun then
        let r := commitLoop cfg (idx + 1) rest cur sha committed
        { r with iters := rec0 :: r.iters, dryLogs := msg :: r.dryLogs }
      else
        let payload := put_file msg cur cfg.branch sha cfg.cName cfg.cEmail
        let resp := cfg.remote committed
        if respOk resp then
          let sha2 := match resp.contentSha with
            | some s2 => some s2
            | none => sha
          let r := commitLoop cfg (idx + 1) rest cur sha2 (committed + 1)
          { r with
            writes := payload :: r.writes
            iters := rec0 :: r.iters
            sleeps := r.sleeps + (if idx < cfg.total then 1 else 0) }
        else
          { writes := [payload], iters := [rec0], dryLogs := [], sleeps := 0,
            committed := committed, finalSha := sha, exitCode := 1 }

/-- The process-level inputs of `main` (after argparse). -/
structure Args where
  token : Option (List Char)
  repo : List Char
  branch : List Char
  delay : List Char
  skipEmpty : Bool
  startIndex : ℤ
  commitPref : List Char
  committerName : Option (List Char)
  committerEmail : Option (List Char)
  dryRun : Bool

/-- The environment of a run: `GITHUB_TOKEN`, the initial fetch outcome,
the write responses, and the (possible) interruption point. -/
structure Env where
  githubToken : Option (List Char)
  fetch : FetchOutcome
  remote : ℕ → RemoteResp
  intr : Option ℕ

/-- `args.token or os.getenv("GITHUB_TOKEN")`. -/
def tokenEff (args : Args) (env : Env) : Option (List Char) :=
  if optTruthy args.token then args.token else env.githubToken

/-- The preprocessed line sequence of `main` (lines 140-144 of the
source): split into lines, optionally drop whitespace-only lines, apply
the start offset. -/
def linesOf (args : Args) (raw : List Char) : List (List Char) :=
  applyStart args.startIndex
    (if args.skipEmpty then (pySplitlines raw).filter stripNonEmpty else pySplitlines raw)

/-- The result of a whole run: the exit code and, when the commit loop was
reached, what it did. -/
structure MainResult where
  exitCode : ℕ
  run : Option RunResult
deriving DecidableEq

/-- The loop configuration `main` builds for a run. -/
def cfgOf (args : Args) (env : Env) (raw : List Char) : LoopCfg :=
  { dryRun := args.dryRun, pref := args.commitPref, branch := args.branch,
    cName := args.committerName, cEmail := args.committerEmail,
    remote := env.remote, intr := env.intr, total := (linesOf args raw).length }

/-- `main` of the source: credential and repository checks (exit 2), delay
parsing (exit 2), line preprocessing (exit 0 when empty), the initial
fetch (exit 1 on failure), then the commit loop. -/
def mainModel (args : Args) (env : Env) (raw : List Char) : MainResult :=
  if optTruthy (tokenEff args env) = false then { exitCode := 2, run := none }
  else if ¬ '/' ∈ args.repo then { exitCode := 2, run := none }
  else
    match build_delay_getter args.delay with
    | none => { exitCode := 2, run := none }
    | some _ =>
      if linesOf args raw = [] then { exitCode := 0, run := none }
      else
        match env.fetch with
        | FetchOutcome.fetchErr => { exitCode := 1, run := none }
        | FetchOutcome.notFound =>
          { exitCode := (commitLoop (cfgOf args env raw) 1 (linesOf args raw) [] none 0).exitCode,
            run := some (commitLoop (cfgOf args env raw) 1 (linesOf args raw) [] none 0) }
        | FetchOutcome.found t s =>
          { exitCode := (commitLoop (cfgOf args env raw) 1 (linesOf args raw) t s 0).exitCode,
            run := some (commitLoop (cfgOf args env raw) 1 (linesOf args raw) t s 0) }

/-- The writes a run performed (none when the loop was not reached). -/
def runWrites (m : MainResult) : List PutPayload :=
  match m.run with
  | none => []
  | some r => r.writes

/-- The iteration records of a run. -/
def runIters (m : MainResult) : List IterRec :=
  match m.run with
  | none => []
  | some r => r.iters

/-- The dry-run log lines of a run. -/
def runDryLogs (m : MainResult) : List (List Char) :=
  match m.run with
  | none => []
  | some r => r.dryLogs

/-- The committed count of a run. -/
def runCommitted (m : MainResult) : ℕ :=
  match m.run with
  | none => 0
  | some r => r.committed

end CheatingActivity

namespace CheatingActivity

/-! ### Buffer dynamics of the loop -/

/-- One iteration's buffer update: ensure a trailing terminator, then
append the line and a terminator. -/
def stepBuf (b ln : List Char) : List Char := ensureNl b ++ ln ++ ['\n']

/-- The successive buffers of the loop, starting from `b`. -/
def bufSeq (b : List Char) : List (List Char) → List (List Char)
  | [] => []
  | ln :: rest => stepBuf b ln :: bufSeq (stepBuf b ln) rest

/-- The lines each followed by a terminator, concatenated. -/
def joinNl (ls : List (List Char)) : List Char :=
  (ls.map (fun ln => ln ++ ['\n'])).flatten

theorem endsNl_append (s : List Char) : endsNl (s ++ ['\n']) = true := by
  rw [endsNl, List.getLast?_concat]
  rfl

theorem ensureNl_id {b : List Char} (h : b = [] ∨ endsNl b = true) : ensureNl b = b := by
  rcases h with h | h
  · subst h
    rfl
  · rw [ensureNl, if_neg]
    intro hand
    rw [h] at hand
    exact absurd rfl hand.2

theorem ensureNl_ends {b : List Char} (h : ensureNl b ≠ []) : endsNl (ensureNl b) = true := by
  rw [ensureNl] at h ⊢
  by_cases hc : ¬ b.isEmpty = true ∧ ¬ endsNl b = true
  · rw [if_pos hc]
    exact endsNl_append b
  · rw [if_neg hc] at h ⊢
    rw [Classical.not_and_iff_or_not_not] at hc
    rcases hc with hc | hc
    · rw [Classical.not_not] at hc
      exact absurd (List.isEmpty_iff.mp hc) h
    · exact Classical.not_not.mp hc

theorem stepBuf_ends (b ln : List Char) : endsNl (stepBuf b ln) = true := by
  rw [stepBuf]
  exact endsNl_append _

theorem joinNl_cons (ln : List Char) (rest : List (List Char)) :
    joinNl (ln :: rest) = (ln ++ ['\n']) ++ joinNl rest := by
  simp [joinNl]

theorem bufSeq_length (b : List Char) (lines : List (List Char)) :
    (bufSeq b lines).length = lines.length := by
  induction lines generalizing b with
  | nil => rfl
  | cons ln rest ih => simp [bufSeq, ih]

/-- Starting from an empty or terminator-ended buffer, the k-th buffer of
the loop is the initial buffer followed by the first k+1 lines, each with
its terminator. -/
theorem bufSeq_prefix : ∀ (lines : List (List Char)) (b : List Char),
    b = [] ∨ endsNl b = true →
    bufSeq b lines
      = (List.range lines.length).map (fun k => b ++ joinNl (lines.take (k + 1))) := by
  intro lines
  induction lines with
  | nil => intro b _; rfl
  | cons ln rest ih =>
    intro b hb
    have hstep : stepBuf b ln = b ++ (ln ++ ['\n']) := by
      rw [stepBuf, ensureNl_id hb, List.append_assoc]
    rw [bufSeq, hstep, ih (b ++ (ln ++ ['\n'])) (Or.inr (by
      rw [← List.append_assoc]
      exact endsNl_append _))]
    rw [List.length_cons, List.range_succ_eq_map, List.map_cons, List.map_map]
    congr 1
    · simp [joinNl]
    · refine List.map_congr_left fun k _ => ?_
      show b ++ (ln ++ ['\n']) ++ joinNl (rest.take (k + 1))
        = b ++ joinNl ((ln :: rest).take (k + 1 + 1))
      rw [List.take_succ_cons, joinNl_cons, List.append_assoc]

end CheatingActivity

namespace CheatingActivity

/-! ### Behaviour of the commit loop -/

/-- In dry-run mode the loop performs no writes, logs one message per
line, never sleeps, leaves the version token unchanged, and exits
normally. -/
theorem commitLoop_dry (cfg : LoopCfg) (hdry : cfg.dryRun = true) (hintr : cfg.intr = none) :
    ∀ (lines : List (List Char)) (idx : ℕ) (buf : List Char)
      (sha : Option (List Char)) (c : ℕ),
      (commitLoop cfg idx lines buf sha c).writes = [] ∧
      (commitLoop cfg idx lines buf sha c).dryLogs.length = lines.length ∧
      (commitLoop cfg idx lines buf sha c).sleeps = 0 ∧
      (commitLoop cfg idx lines buf sha c).finalSha = sha ∧
      (commitLoop cfg idx lines buf sha c).exitCode = 0 := by
  intro lines
  induction lines with
  | nil => intro idx buf sha c; exact ⟨rfl, rfl, rfl, rfl, rfl⟩
  | cons ln rest ih =>
    intro idx buf sha c
    have h2 := ih (idx + 1) (stepBuf buf ln) sha c
    simp only [commitLoop, hintr, hdry]
    simp only [reduceCtorEq, if_false, if_true]
    simpa [stepBuf, List.length_cons] using h2

end CheatingActivity

namespace CheatingActivity

/-- With every response successful, live mode, and no interruption: the
submitted buffers are exactly the successive loop buffers, the exit is
normal, and every line is committed. -/
theorem commitLoop_ok (cfg : LoopCfg) (hdry : cfg.dryRun = false) (hintr : cfg.intr = none)
    (hok : ∀ n, respOk (cfg.remote n) = true) :
    ∀ (lines : List (List Char)) (idx : ℕ) (buf : List Char)
      (sha : Option (List Char)) (c : ℕ),
      (commitLoop cfg idx lines buf sha c).writes.map PutPayload.content = bufSeq buf lines ∧
      (commitLoop cfg idx lines buf sha c).exitCode = 0 ∧
      (commitLoop cfg idx lines buf sha c).committed = c + lines.length := by
  intro lines
  induction lines with
  | nil => intro idx buf sha c; exact ⟨rfl, rfl, rfl⟩
  | cons ln rest ih =>
    intro idx buf sha c
    obtain ⟨hw, he, hc⟩ := ih (idx + 1) (stepBuf buf ln)
      (match (cfg.remote c).contentSha with
        | some s2 => some s2
        | none => sha) (c + 1)
    simp only [commitLoop, hintr, hdry, hok c, reduceCtorEq, if_false, if_true,
      Bool.false_eq_true, List.map_cons]
    simp only [show ensureNl buf ++ ln ++ ['\n'] = stepBuf buf ln from rfl]
    refine ⟨?_, he, ?_⟩
    · rw [bufSeq, ← hw]
      rfl
    · rw [hc, List.length_cons]
      omega

end CheatingActivity

namespace CheatingActivity

/-- When the first `j` responses succeed and the `j+1`-st fails (0-based),
the loop attempts exactly `j+1` writes, confirms `j` commits, and exits
with code 1. -/
theorem commitLoop_fail (cfg : LoopCfg) (hdry : cfg.dryRun = false) (hintr : cfg.intr = none) :
    ∀ (lines : List (List Char)) (j idx : ℕ) (buf : List Char)
      (sha : Option (List Char)) (c : ℕ),
      j < lines.length →
      (∀ n, n < j → respOk (cfg.remote (c + n)) = true) →
      respOk (cfg.remote (c + j)) = false →
      (commitLoop cfg idx lines buf sha c).writes.length = j + 1 ∧
      (commitLoop cfg idx lines buf sha c).committed = c + j ∧
      (commitLoop cfg idx lines buf sha c).exitCode = 1 := by
  intro lines
  induction lines with
  | nil =>
    intro j idx buf sha c hj
    exact absurd hj (by simp)
  | cons ln rest ih =>
    intro j idx buf sha c hj hpre hfail
    cases j with
    | zero =>
      have hf : respOk (cfg.remote c) = false := by simpa using hfail
      simp [commitLoop, hintr, hdry, hf]
    | succ j =>
      have h0 : respOk (cfg.remote c) = true := by
        have h1 := hpre 0 (by omega)
        simpa using h1
      obtain ⟨ih1, ih2, ih3⟩ := ih j (idx + 1) (stepBuf buf ln)
        (match (cfg.remote c).contentSha with
          | some s2 => some s2
          | none => sha) (c + 1)
        (by
          rw [List.length_cons] at hj
          omega)
        (fun n hn => by
          rw [show c + 1 + n = c + (n + 1) by omega]
          exact hpre (n + 1) (by omega))
        (by
          rw [show c + 1 + j = c + (j + 1) by omega]
          exact hfail)
      simp only [commitLoop, hintr, hdry, h0, reduceCtorEq, if_false, if_true,
        Bool.false_eq_true]
      simp only [show ensureNl buf ++ ln ++ ['\n'] = stepBuf buf ln from rfl]
      refine ⟨?_, ?_, ih3⟩
      · rw [List.length_cons, ih1]
      · rw [ih2]
        omega

/-- An interruption arriving at the boundary of the `i+1`-st remaining
iteration (0-based `i`), after `i` successful writes, exits with code
130. -/
theorem commitLoop_intr (cfg : LoopCfg) (hdry : cfg.dryRun = false) :
    ∀ (lines : List (List Char)) (i idx : ℕ) (buf : List Char)
      (sha : Option (List Char)) (c : ℕ),
      cfg.intr = some (idx + i) →
      i < lines.length →
      (∀ n, n < i → respOk (cfg.remote (c + n)) = true) →
      (commitLoop cfg idx lines buf sha c).exitCode = 130 := by
  intro lines
  induction lines with
  | nil =>
    intro i idx buf sha c _ hi
    exact absurd hi (by simp)
  | cons ln rest ih =>
    intro i idx buf sha c hintr hi hpre
    cases i with
    | zero =>
      simp only [Nat.add_zero] at hintr
      simp [commitLoop, hintr]
    | succ i =>
      have hne : ¬ cfg.intr = some idx := by
        rw [hintr]
        intro he
        injection he with he2
        omega
      have h0 : respOk (cfg.remote c) = true := by
        have h1 := hpre 0 (by omega)
        simpa using h1
      have ihh := ih i (idx + 1) (stepBuf buf ln)
        (match (cfg.remote c).contentSha with
          | some s2 => some s2
          | none => sha) (c + 1)
        (by
          rw [hintr]
          congr 1
          omega)
        (by
          rw [List.length_cons] at hi
          omega)
        (fun n hn => by
          rw [show c + 1 + n = c + (n + 1) by omega]
          exact hpre (n + 1) (by omega))
      simp only [commitLoop, hne, hdry, h0, reduceCtorEq, if_false, if_true,
        Bool.false_eq_true]
      simp only [show ensureNl buf ++ ln ++ ['\n'] = stepBuf buf ln from rfl]
      exact ihh

/-- The first write of a non-empty live run carries the sha field
`put_file` derives from the version token at loop entry. -/
theorem commitLoop_first_write (cfg : LoopCfg) (hdry : cfg.dryRun = false)
    (hintr : cfg.intr = none) (ln : List Char) (rest : List (List Char)) (idx : ℕ)
    (buf : List Char) (sha : Option (List Char)) (c : ℕ) :
    ∃ p, (commitLoop cfg idx (ln :: rest) buf sha c).writes.head? = some p ∧
      p.shaField = (if optTruthy sha then sha else none) := by
  cases hr : respOk (cfg.remote c) with
  | true =>
    refine ⟨put_file (cfg.pref ++ [' '] ++ Nat.toDigits 10 idx ++ ['/']
      ++ Nat.toDigits 10 cfg.total ++ [':', ' '] ++ shorten ln)
      (ensureNl buf ++ ln ++ ['\n']) cfg.branch sha cfg.cName cfg.cEmail, ?_, rfl⟩
    simp only [commitLoop, hintr, hdry, hr, reduceCtorEq, if_false, if_true,
      Bool.false_eq_true]
    rfl
  | false =>
    refine ⟨put_file (cfg.pref ++ [' '] ++ Nat.toDigits 10 idx ++ ['/']
      ++ Nat.toDigits 10 cfg.total ++ [':', ' '] ++ shorten ln)
      (ensureNl buf ++ ln ++ ['\n']) cfg.branch sha cfg.cName cfg.cEmail, ?_, rfl⟩
    simp only [commitLoop, hintr, hdry, hr, reduceCtorEq, if_false, Bool.false_eq_true]
    rfl

/-- At every iteration of every run, the buffer right before the append
ends with a terminator whenever it is non-empty, and the buffer right
after the append always ends with a terminator. -/
theorem commitLoop_iters_inv (cfg : LoopCfg) :
    ∀ (lines : List (List Char)) (idx : ℕ) (buf : List Char)
      (sha : Option (List Char)) (c : ℕ),
      ∀ rec2 ∈ (commitLoop cfg idx lines buf sha c).iters,
        (rec2.pre ≠ [] → endsNl rec2.pre = true) ∧ endsNl rec2.buf = true := by
  intro lines
  induction lines with
  | nil =>
    intro idx buf sha c rec2 h
    simp [commitLoop] at h
  | cons ln rest ih =>
    intro idx buf sha c rec2 h
    by_cases hi : cfg.intr = some idx
    · simp [commitLoop, hi] at h
    · by_cases hd : cfg.dryRun = true
      · simp only [commitLoop, hi, hd, reduceCtorEq, if_false, if_true] at h
        rw [List.mem_cons] at h
        rcases h with rfl | h
        · exact ⟨fun hne => ensureNl_ends hne, endsNl_append _⟩
        · exact ih (idx + 1) _ _ c rec2 h
      · rw [Bool.not_eq_true] at hd
        cases hr : respOk (cfg.remote c) with
        | true =>
          simp only [commitLoop, hi, hd, hr, reduceCtorEq, if_false, if_true,
            Bool.false_eq_true] at h
          rw [List.mem_cons] at h
          rcases h with rfl | h
          · exact ⟨fun hne => ensureNl_ends hne, endsNl_append _⟩
          · exact ih (idx + 1) _ _ (c + 1) rec2 h
        | false =>
          simp only [commitLoop, hi, hd, hr, reduceCtorEq, if_false,
            Bool.false_eq_true] at h
          rw [List.mem_cons] at h
          rcases h with rfl | h
          · exact ⟨fun hne => ensureNl_ends hne, endsNl_append _⟩
          · simp at h

end CheatingActivity

namespace CheatingActivity

/-! ### Bridging `mainModel` and the loop -/

/-- Past the argument checks, with a non-empty line sequence and a
successful fetch, `main` runs the commit loop from the fetched state. -/
theorem mainModel_eq_loop {args : Args} {env : Env} {raw : List Char}
    (htok : optTruthy (tokenEff args env) = true)
    (hrepo : '/' ∈ args.repo)
    {dg : DelayGetter} (hdg : build_delay_getter args.delay = some dg)
    (hne : linesOf args raw ≠ [])
    {bt : List Char} {bs : Option (List Char)}
    (hfetch : env.fetch = FetchOutcome.found bt bs ∨
      (env.fetch = FetchOutcome.notFound ∧ bt = [] ∧ bs = none)) :
    mainModel args env raw =
      { exitCode := (commitLoop (cfgOf args env raw) 1 (linesOf args raw) bt bs 0).exitCode,
        run := some (commitLoop (cfgOf args env raw) 1 (linesOf args raw) bt bs 0) } := by
  unfold mainModel
  rw [if_neg (by rw [htok]; simp), if_neg (fun hc => hc hrepo), hdg, if_neg hne]
  rcases hfetch with hf | ⟨hf, rfl, rfl⟩ <;> rw [hf]

/-- Any run record produced by `main` is a run of the commit loop from the
fetched (or empty) initial state. -/
theorem mainModel_run_shape {args : Args} {env : Env} {raw : List Char} {r : RunResult}
    (h : (mainModel args env raw).run = some r) :
    ∃ bt bs,
      (env.fetch = FetchOutcome.found bt bs ∨
        (env.fetch = FetchOutcome.notFound ∧ bt = [] ∧ bs = none)) ∧
      r = commitLoop (cfgOf args env raw) 1 (linesOf args raw) bt bs 0 := by
  unfold mainModel at h
  split at h
  · simp at h
  · split at h
    · simp at h
    · split at h
      · simp at h
      · split at h
        · simp at h
        · split at h
          · simp at h
          · rename_i hfetch
            simp at h
            exact ⟨[], none, Or.inr ⟨hfetch, rfl, rfl⟩, h.symm⟩
          · rename_i t s hfetch
            simp at h
            exact ⟨t, s, Or.inl hfetch, h.symm⟩

end CheatingActivity

namespace CheatingActivity

/-! ### Claim theorems -/

/-- C1: for every input text that splits into N non-empty lines, with
skip-empty unset, start-index 0 and the remote file initially absent, the
orchestrator performs exactly N remote writes, the buffer submitted in the
k-th write being the first k lines each followed by a line terminator; in
dry-run mode the same input yields N logged messages and zero writes. -/
theorem one_commit_per_line :
    ∀ (args : Args) (env : Env) (raw : List Char),
      optTruthy args.token = true → '/' ∈ args.repo →
      build_delay_getter args.delay ≠ none →
      args.skipEmpty = false → args.startIndex = 0 →
      env.fetch = FetchOutcome.notFound → env.intr = none →
      (∀ n, respOk (env.remote n) = true) →
      (∀ ln ∈ pySplitlines raw, ln ≠ []) →
      (args.dryRun = false →
        (runWrites (mainModel args env raw)).map PutPayload.content
          = (List.range (pySplitlines raw).length).map
              (fun k => joinNl ((pySplitlines raw).take (k + 1))) ∧
        (runWrites (mainModel args env raw)).length = (pySplitlines raw).length) ∧
      (args.dryRun = true →
        runWrites (mainModel args env raw) = [] ∧
        (runDryLogs (mainModel args env raw)).length = (pySplitlines raw).length) := by
  intro args env raw htok hrepo hdel hskip hstart hfetch hintr hok _
  have htok2 : optTruthy (tokenEff args env) = true := by
    rw [tokenEff, if_pos htok]
    exact htok
  have hlines : linesOf args raw = pySplitlines raw := by
    rw [linesOf, hskip, hstart]
    simp [applyStart]
  obtain ⟨dg, hdg⟩ : ∃ dg, build_delay_getter args.delay = some dg := by
    cases hbd : build_delay_getter args.delay with
    | none => exact absurd hbd hdel
    | some dg => exact ⟨dg, rfl⟩
  by_cases hemp : pySplitlines raw = []
  · have hml : mainModel args env raw = { exitCode := 0, run := none } := by
      unfold mainModel
      rw [if_neg (by rw [htok2]; simp), if_neg (fun hc => hc hrepo), hdg,
        if_pos (by rw [hlines]; exact hemp)]
    rw [hml]
    constructor
    · intro _
      simp [runWrites, hemp]
    · intro _
      simp [runWrites, runDryLogs, hemp]
  · have hml := mainModel_eq_loop htok2 hrepo hdg (by rw [hlines]; exact hemp)
      (Or.inr ⟨hfetch, rfl, rfl⟩)
    rw [hml]
    constructor
    · intro hdry
      obtain ⟨hw, _, _⟩ := commitLoop_ok (cfgOf args env raw) hdry hintr hok
        (linesOf args raw) 1 [] none 0
      constructor
      · show (commitLoop (cfgOf args env raw) 1 (linesOf args raw) [] none 0).writes.map
            PutPayload.content = _
        rw [hw, bufSeq_prefix (linesOf args raw) [] (Or.inl rfl), hlines]
        simp
      · show (commitLoop (cfgOf args env raw) 1 (linesOf args raw) [] none 0).writes.length = _
        have hlen := congrArg List.length hw
        rw [List.length_map] at hlen
        rw [hlen, bufSeq_length, hlines]
    · intro hdry
      obtain ⟨h1, h2, _, _, _⟩ := commitLoop_dry (cfgOf args env raw) hdry hintr
        (linesOf args raw) 1 [] none 0
      constructor
      · show (commitLoop (cfgOf args env raw) 1 (linesOf args raw) [] none 0).writes = []
        exact h1
      · show (commitLoop (cfgOf args env raw) 1 (linesOf args raw) [] none 0).dryLogs.length = _
        rw [h2, hlines]

/-- A concrete run for the C1 witness: two lines, delay `"0"`, all writes
succeeding. -/
def c1Args : Args :=
  { token := some ['t'], repo := ['o', '/', 'r'], branch := ['m'],
    delay := ['0'], skipEmpty := false, startIndex := 0, commitPref := ['p'],
    committerName := none, committerEmail := none, dryRun := false }

def c1Env : Env :=
  { githubToken := none, fetch := FetchOutcome.notFound,
    remote := fun _ => { code := 201, contentSha := some ['s'] }, intr := none }

theorem one_commit_per_line_witness :
    (runWrites (mainModel c1Args c1Env ['a', '\n', 'b', '\n'])).map PutPayload.content
      = (List.range (pySplitlines ['a', '\n', 'b', '\n']).length).map
          (fun k => joinNl ((pySplitlines ['a', '\n', 'b', '\n']).take (k + 1))) ∧
    (runWrites (mainModel c1Args c1Env ['a', '\n', 'b', '\n'])).length
      = (pySplitlines ['a', '\n', 'b', '\n']).length :=
  (one_commit_per_line c1Args c1Env ['a', '\n', 'b', '\n'] (by decide) (by decide)
    (by decide) rfl rfl rfl rfl (fun _ => rfl) (by decide)).1 rfl

end CheatingActivity

namespace CheatingActivity

/-- A run with no credential anywhere (failure category: missing
credential). -/
def c4ArgsA : Args :=
  { token := none, repo := ['o', '/', 'r'], branch := ['m'], delay := ['0'],
    skipEmpty := false, startIndex := 0, commitPref := [],
    committerName := none, committerEmail := none, dryRun := false }

/-- A run with a credential but a malformed delay (failure category:
malformed delay specification). -/
def c4ArgsB : Args :=
  { token := some ['t'], repo := ['o', '/', 'r'], branch := ['m'], delay := ['x'],
    skipEmpty := false, startIndex := 0, commitPref := [],
    committerName := none, committerEmail := none, dryRun := false }

def c4Env : Env :=
  { githubToken := none, fetch := FetchOutcome.notFound,
    remote := fun _ => { code := 201, contentSha := none }, intr := none }

/-- C4 counterexample: a missing-credential run and a malformed-delay run
(two different failure categories) exit with the same code 2, so the four
categories do not receive pairwise-distinct codes. -/
theorem exit_codes_collide :
    (mainModel c4ArgsA c4Env ['a']).exitCode = 2 ∧
    (mainModel c4ArgsB c4Env ['a']).exitCode = 2 ∧
    (mainModel c4ArgsA c4Env ['a']).exitCode = (mainModel c4ArgsB c4Env ['a']).exitCode := by
  refine ⟨?_, ?_, ?_⟩ <;> decide

/-- A delay spec the getter accepts resolves to some value. -/
theorem delay_some {d : List Char} (h : build_delay_getter d ≠ none) :
    ∃ dg, build_delay_getter d = some dg := by
  cases hbd : build_delay_getter d with
  | none => exact absurd hbd h
  | some dg => exact ⟨dg, rfl⟩

/-- Write failure at the k-th line: exit 1 after k-1 confirmed commits and
k attempted writes. -/
theorem mainModel_write_fail {args : Args} {env : Env} {raw : List Char} {k : ℕ}
    (htok : optTruthy (tokenEff args env) = true) (hrepo : '/' ∈ args.repo)
    (hdel : build_delay_getter args.delay ≠ none)
    (hfetch : env.fetch = FetchOutcome.notFound)
    (hdry : args.dryRun = false) (hintr : env.intr = none)
    (hk1 : 1 ≤ k) (hk2 : k ≤ (linesOf args raw).length)
    (hpre : ∀ n, n < k - 1 → respOk (env.remote n) = true)
    (hfail : respOk (env.remote (k - 1)) = false) :
    (mainModel args env raw).exitCode = 1 ∧
    (runWrites (mainModel args env raw)).length = k ∧
    runCommitted (mainModel args env raw) = k - 1 := by
  obtain ⟨dg, hdg⟩ := delay_some hdel
  have hne : linesOf args raw ≠ [] := by
    intro he
    rw [he] at hk2
    simp at hk2
    omega
  have hml := mainModel_eq_loop htok hrepo hdg hne (Or.inr ⟨hfetch, rfl, rfl⟩)
  obtain ⟨h1, h2, h3⟩ := commitLoop_fail (cfgOf args env raw) hdry hintr
    (linesOf args raw) (k - 1) 1 [] none 0 (by omega)
    (fun n hn => by simpa using hpre n hn)
    (by simpa using hfail)
  rw [hml]
  refine ⟨h3, ?_, ?_⟩
  · show (commitLoop (cfgOf args env raw) 1 (linesOf args raw) [] none 0).writes.length = k
    rw [h1]
    omega
  · show (commitLoop (cfgOf args env raw) 1 (linesOf args raw) [] none 0).committed = k - 1
    rw [h2]
    omega

/-- Interruption at the boundary of iteration i (1-based), all earlier
writes successful: exit 130. -/
theorem mainModel_intr {args : Args} {env : Env} {raw : List Char} {i : ℕ}
    (htok : optTruthy (tokenEff args env) = true) (hrepo : '/' ∈ args.repo)
    (hdel : build_delay_getter args.delay ≠ none)
    (hfetch : env.fetch = FetchOutcome.notFound)
    (hdry : args.dryRun = false) (hintr : env.intr = some i)
    (hi1 : 1 ≤ i) (hi2 : i ≤ (linesOf args raw).length)
    (hpre : ∀ n, n < i - 1 → respOk (env.remote n) = true) :
    (mainModel args env raw).exitCode = 130 := by
  obtain ⟨dg, hdg⟩ := delay_some hdel
  have hne : linesOf args raw ≠ [] := by
    intro he
    rw [he] at hi2
    simp at hi2
    omega
  have hml := mainModel_eq_loop htok hrepo hdg hne (Or.inr ⟨hfetch, rfl, rfl⟩)
  rw [hml]
  exact commitLoop_intr (cfgOf args env raw) hdry (linesOf args raw) (i - 1) 1
    [] none 0 (by show env.intr = some (1 + (i - 1)); rw [hintr]; congr 1; omega)
    (by omega) (fun n hn => by simpa using hpre n hn)

/-- All-success completion: exit 0. -/
theorem mainModel_success {args : Args} {env : Env} {raw : List Char}
    (htok : optTruthy (tokenEff args env) = true) (hrepo : '/' ∈ args.repo)
    (hdel : build_delay_getter args.delay ≠ none)
    (hfetch : env.fetch = FetchOutcome.notFound)
    (hdry : args.dryRun = false) (hintr : env.intr = none)
    (hok : ∀ n, respOk (env.remote n) = true) :
    (mainModel args env raw).exitCode = 0 := by
  obtain ⟨dg, hdg⟩ := delay_some hdel
  by_cases hne : linesOf args raw = []
  · unfold mainModel
    rw [if_neg (by rw [htok]; simp), if_neg (fun hc => hc hrepo), hdg, if_pos hne]
  · have hml := mainModel_eq_loop htok hrepo hdg hne (Or.inr ⟨hfetch, rfl, rfl⟩)
    rw [hml]
    exact (commitLoop_ok (cfgOf args env raw) hdry hintr hok
      (linesOf args raw) 1 [] none 0).2.1

/-- C4 (amended): exit codes by failure category — missing credential and
malformed repository identifier exit 2, a malformed delay specification
also exits 2 (the first two categories share the code), a failed initial
fetch or a remote write failure exits 1, an interruption exits 130, and
normal completion — the empty ("nothing to commit") case included — exits
0. -/
theorem exit_codes_by_category :
    (∀ (args : Args) (env : Env) (raw : List Char),
      optTruthy (tokenEff args env) = false → (mainModel args env raw).exitCode = 2) ∧
    (∀ (args : Args) (env : Env) (raw : List Char),
      optTruthy (tokenEff args env) = true → ¬ '/' ∈ args.repo →
      (mainModel args env raw).exitCode = 2) ∧
    (∀ (args : Args) (env : Env) (raw : List Char),
      optTruthy (tokenEff args env) = true → '/' ∈ args.repo →
      build_delay_getter args.delay = none → (mainModel args env raw).exitCode = 2) ∧
    (∀ (args : Args) (env : Env) (raw : List Char),
      optTruthy (tokenEff args env) = true → '/' ∈ args.repo →
      build_delay_getter args.delay ≠ none → linesOf args raw ≠ [] →
      env.fetch = FetchOutcome.fetchErr → (mainModel args env raw).exitCode = 1) ∧
    (∀ (args : Args) (env : Env) (raw : List Char) (k : ℕ),
      optTruthy (tokenEff args env) = true → '/' ∈ args.repo →
      build_delay_getter args.delay ≠ none →
      env.fetch = FetchOutcome.notFound → args.dryRun = false → env.intr = none →
      1 ≤ k → k ≤ (linesOf args raw).length →
      (∀ n, n < k - 1 → respOk (env.remote n) = true) →
      respOk (env.remote (k - 1)) = false →
      (mainModel args env raw).exitCode = 1) ∧
    (∀ (args : Args) (env : Env) (raw : List Char) (i : ℕ),
      optTruthy (tokenEff args env) = true → '/' ∈ args.repo →
      build_delay_getter args.delay ≠ none →
      env.fetch = FetchOutcome.notFound → args.dryRun = false → env.intr = some i →
      1 ≤ i → i ≤ (linesOf args raw).length →
      (∀ n, n < i - 1 → respOk (env.remote n) = true) →
      (mainModel args env raw).exitCode = 130) ∧
    (∀ (args : Args) (env : Env) (raw : List Char),
      optTruthy (tokenEff args env) = true → '/' ∈ args.repo →
      build_delay_getter args.delay ≠ none →
      env.fetch = FetchOutcome.notFound → args.dryRun = false → env.intr = none →
      (∀ n, respOk (env.remote n) = true) →
      (mainModel args env raw).exitCode = 0) := by
  refine ⟨?_, ?_, ?_, ?_, ?_, ?_, ?_⟩
  · intro args env raw htok
    unfold mainModel
    rw [if_pos htok]
  · intro args env raw htok hrepo
    unfold mainModel
    rw [if_neg (by rw [htok]; simp), if_pos hrepo]
  · intro args env raw htok hrepo hdg
    unfold mainModel
    rw [if_neg (by rw [htok]; simp), if_neg (fun hc => hc hrepo), hdg]
  · intro args env raw htok hrepo hdel hne hfetch
    obtain ⟨dg, hdg⟩ := delay_some hdel
    unfold mainModel
    rw [if_neg (by rw [htok]; simp), if_neg (fun hc => hc hrepo), hdg, if_neg hne, hfetch]
  · intro args env raw k htok hrepo hdel hfetch hdry hintr hk1 hk2 hpre hfail
    exact (mainModel_write_fail htok hrepo hdel hfetch hdry hintr hk1 hk2 hpre hfail).1
  · intro args env raw i htok hrepo hdel hfetch hdry hintr hi1 hi2 hpre
    exact mainModel_intr htok hrepo hdel hfetch hdry hintr hi1 hi2 hpre
  · intro args env raw htok hrepo hdel hfetch hdry hintr hok
    exact mainModel_success htok hrepo hdel hfetch hdry hintr hok

/-- C5: if the remote write for the k-th line fails, the run halts with a
non-zero exit after exactly k-1 confirmed commits and exactly k attempted
writes (no retry; the loop result records no further writes and nothing is
rolled back). -/
theorem write_failure_halts :
    ∀ (args : Args) (env : Env) (raw : List Char) (k : ℕ),
      optTruthy (tokenEff args env) = true → '/' ∈ args.repo →
      build_delay_getter args.delay ≠ none →
      env.fetch = FetchOutcome.notFound → args.dryRun = false → env.intr = none →
      1 ≤ k → k ≤ (linesOf args raw).length →
      (∀ n, n < k - 1 → respOk (env.remote n) = true) →
      respOk (env.remote (k - 1)) = false →
      (mainModel args env raw).exitCode = 1 ∧
      (runWrites (mainModel args env raw)).length = k ∧
      runCommitted (mainModel args env raw) = k - 1 :=
  fun _ _ _ _ htok hrepo hdel hfetch hdry hintr hk1 hk2 hpre hfail =>
    mainModel_write_fail htok hrepo hdel hfetch hdry hintr hk1 hk2 hpre hfail

def c5Env : Env :=
  { githubToken := none, fetch := FetchOutcome.notFound,
    remote := fun n => if n = 0 then { code := 201, contentSha := some ['s'] }
      else { code := 409, contentSha := none },
    intr := none }

theorem write_failure_halts_witness :
    (mainModel c1Args c5Env ['a', '\n', 'b', '\n', 'c', '\n']).exitCode = 1 ∧
    (runWrites (mainModel c1Args c5Env ['a', '\n', 'b', '\n', 'c', '\n'])).length = 2 ∧
    runCommitted (mainModel c1Args c5Env ['a', '\n', 'b', '\n', 'c', '\n']) = 2 - 1 :=
  write_failure_halts c1Args c5Env ['a', '\n', 'b', '\n', 'c', '\n'] 2
    (by decide) (by decide) (by decide) rfl rfl rfl
    (by decide) (by decide) (by decide) (by decide)

end CheatingActivity

namespace CheatingActivity

/-- C6: when the initial fetch reports the file absent, the first write
carries no version token (create semantics); when it finds the file with a
(non-empty) version token, the first write carries exactly that token. -/
theorem first_write_version_token :
    (∀ (args : Args) (env : Env) (raw : List Char),
      optTruthy (tokenEff args env) = true → '/' ∈ args.repo →
      build_delay_getter args.delay ≠ none →
      args.dryRun = false → env.intr = none →
      env.fetch = FetchOutcome.notFound → linesOf args raw ≠ [] →
      ∃ p, (runWrites (mainModel args env raw)).head? = some p ∧ p.shaField = none) ∧
    (∀ (args : Args) (env : Env) (raw : List Char) (bt s : List Char),
      optTruthy (tokenEff args env) = true → '/' ∈ args.repo →
      build_delay_getter args.delay ≠ none →
      args.dryRun = false → env.intr = none →
      env.fetch = FetchOutcome.found bt (some s) → s ≠ [] → linesOf args raw ≠ [] →
      ∃ p, (runWrites (mainModel args env raw)).head? = some p ∧ p.shaField = some s) := by
  constructor
  · intro args env raw htok hrepo hdel hdry hintr hfetch hne
    obtain ⟨dg, hdg⟩ := delay_some hdel
    have hml := mainModel_eq_loop htok hrepo hdg hne (Or.inr ⟨hfetch, rfl, rfl⟩)
    rw [hml]
    obtain ⟨ln, rest, hlr⟩ : ∃ ln rest, linesOf args raw = ln :: rest := by
      cases hl : linesOf args raw with
      | nil => exact absurd hl hne
      | cons ln rest => exact ⟨ln, rest, rfl⟩
    rw [hlr]
    obtain ⟨p, hp1, hp2⟩ := commitLoop_first_write (cfgOf args env raw) hdry hintr
      ln rest 1 [] none 0
    exact ⟨p, hp1, by rw [hp2]; rfl⟩
  · intro args env raw bt s htok hrepo hdel hdry hintr hfetch hs hne
    obtain ⟨dg, hdg⟩ := delay_some hdel
    have hml := mainModel_eq_loop htok hrepo hdg hne (Or.inl hfetch)
    rw [hml]
    obtain ⟨ln, rest, hlr⟩ : ∃ ln rest, linesOf args raw = ln :: rest := by
      cases hl : linesOf args raw with
      | nil => exact absurd hl hne
      | cons ln rest => exact ⟨ln, rest, rfl⟩
    rw [hlr]
    obtain ⟨p, hp1, hp2⟩ := commitLoop_first_write (cfgOf args env raw) hdry hintr
      ln rest 1 bt (some s) 0
    refine ⟨p, hp1, ?_⟩
    rw [hp2, if_pos]
    show optTruthy (some s) = true
    simp [optTruthy, hs]

/-- The run exhibiting more than one trailing terminator before an append:
the fetched file content ends in two newlines. -/
def c7Args : Args :=
  { token := some ['t'], repo := ['o', '/', 'r'], branch := ['m'], delay := ['0'],
    skipEmpty := false, startIndex := 0, commitPref := [],
    committerName := none, committerEmail := none, dryRun := false }

def c7Env : Env :=
  { githubToken := none,
    fetch := FetchOutcome.found ['x', '\n', '\n'] (some ['s']),
    remote := fun _ => { code := 201, contentSha := some ['s'] }, intr := none }

/-- The buffer ends with exactly one line terminator. -/
def endsOneNl (s : List Char) : Bool := endsNl s && !(endsNl s.dropLast)

/-- C7 counterexample: with initial fetched content `"x\n\n"`, the buffer
immediately before the first append is `"x\n\n"` — non-empty and ending
with two terminators, not exactly one. -/
theorem buffer_exactly_one_terminator_cex :
    (runIters (mainModel c7Args c7Env ['a'])).map IterRec.pre = [['x', '\n', '\n']] ∧
    (['x', '\n', '\n'] : List Char) ≠ [] ∧
    endsOneNl ['x', '\n', '\n'] = false := by
  refine ⟨?_, ?_, ?_⟩ <;> decide

/-- C7 (amended): at every loop iteration of every run, the buffer
immediately before the append ends with at least one line terminator
whenever it is non-empty, and after every append the buffer ends with a
line terminator — but the pre-append buffer need not end with exactly one
(the ensure step appends a terminator if missing, it never strips
extras). -/
theorem buffer_terminator_amended :
    ∀ (args : Args) (env : Env) (raw : List Char) (rec2 : IterRec),
      rec2 ∈ runIters (mainModel args env raw) →
      (rec2.pre ≠ [] → endsNl rec2.pre = true) ∧ endsNl rec2.buf = true := by
  intro args env raw rec2 h
  cases hr : (mainModel args env raw).run with
  | none => simp [runIters, hr] at h
  | some r =>
    obtain ⟨bt, bs, _, hreq⟩ := mainModel_run_shape hr
    simp only [runIters, hr] at h
    rw [hreq] at h
    exact commitLoop_iters_inv (cfgOf args env raw) (linesOf args raw) 1 bt bs 0 rec2 h

theorem buffer_terminator_amended_witness :
    (⟨['x', '\n', '\n'], ['x', '\n', '\n', 'a', '\n'],
        [' ', '1', '/', '1', ':', ' ', 'a']⟩ : IterRec)
      ∈ runIters (mainModel c7Args c7Env ['a']) ∧
    ((['x', '\n', '\n'] : List Char) ≠ [] → endsNl ['x', '\n', '\n'] = true) ∧
    endsNl ['x', '\n', '\n', 'a', '\n'] = true :=
  ⟨by decide, buffer_terminator_amended c7Args c7Env ['a']
    ⟨['x', '\n', '\n'], ['x', '\n', '\n', 'a', '\n'],
      [' ', '1', '/', '1', ':', ' ', 'a']⟩ (by decide)⟩

end CheatingActivity

namespace CheatingActivity

/-- C8: in dry-run mode no remote write is ever made, the version token
keeps its post-fetch value, no inter-commit delay is sampled or slept, and
each iteration logs its would-be commit message. -/
theorem dry_run_frame :
    ∀ (args : Args) (env : Env) (raw : List Char),
      args.dryRun = true → env.intr = none →
      runWrites (mainModel args env raw) = [] ∧
      (∀ r, (mainModel args env raw).run = some r →
        r.writes = [] ∧ r.sleeps = 0 ∧
        r.finalSha = (match env.fetch with
          | FetchOutcome.found _ s => s
          | FetchOutcome.notFound => none
          | FetchOutcome.fetchErr => none) ∧
        r.dryLogs.length = (linesOf args raw).length) := by
  intro args env raw hdry hintr
  constructor
  · cases hr : (mainModel args env raw).run with
    | none => simp [runWrites, hr]
    | some r =>
      obtain ⟨bt, bs, _, hreq⟩ := mainModel_run_shape hr
      simp only [runWrites, hr]
      rw [hreq]
      exact (commitLoop_dry (cfgOf args env raw) hdry hintr _ _ _ _ _).1
  · intro r hr
    obtain ⟨bt, bs, hrel, hreq⟩ := mainModel_run_shape hr
    obtain ⟨h1, h2, h3, h4, _⟩ := commitLoop_dry (cfgOf args env raw) hdry hintr
      (linesOf args raw) 1 bt bs 0
    subst hreq
    refine ⟨h1, h3, ?_, h2⟩
    rw [h4]
    rcases hrel with hf | ⟨hf, hbt, hbs⟩
    · rw [hf]
    · rw [hf, hbs]

def c8Args : Args :=
  { token := some ['t'], repo := ['o', '/', 'r'], branch := ['m'],
    delay := ['0'], skipEmpty := false, startIndex := 0, commitPref := ['p'],
    committerName := none, committerEmail := none, dryRun := true }

theorem dry_run_frame_witness :
    runWrites (mainModel c8Args c1Env ['a', '\n', 'b', '\n']) = [] ∧
    (∀ r, (mainModel c8Args c1Env ['a', '\n', 'b', '\n']).run = some r →
      r.writes = [] ∧ r.sleeps = 0 ∧
      r.finalSha = (match c1Env.fetch with
        | FetchOutcome.found _ s => s
        | FetchOutcome.notFound => none
        | FetchOutcome.fetchErr => none) ∧
      r.dryLogs.length = (linesOf c8Args ['a', '\n', 'b', '\n']).length) :=
  dry_run_frame c8Args c1Env ['a', '\n', 'b', '\n'] rfl rfl

/-- C9: a start offset less than or equal to zero (negative values
included) leaves the line sequence unchanged: there is no negative-slice
semantics, lines are dropped only for a strictly positive offset. -/
theorem start_index_nonpositive :
    ∀ (i : ℤ) (ls : List (List Char)), i ≤ 0 → applyStart i ls = ls := by
  intro i ls hi
  rw [applyStart, if_neg (by omega)]

theorem start_index_nonpositive_witness :
    ((-3 : ℤ) ≤ 0) ∧ applyStart (-3) [['a'], ['b']] = [['a'], ['b']] :=
  ⟨by decide, start_index_nonpositive (-3) [['a'], ['b']] (by decide)⟩

/-- C10: the write request carries a committer identity exactly when both
the committer name and email are supplied (truthy); with at most one of
the two supplied, the request carries no committer field and the lone
value is ignored. -/
theorem put_file_committer :
    (∀ (msg txt br : List Char) (sha cn ce : Option (List Char)),
      (put_file msg txt br sha cn ce).committer ≠ none
        ↔ (optTruthy cn = true ∧ optTruthy ce = true)) ∧
    (∀ (msg txt br : List Char) (sha cn ce : Option (List Char)),
      optTruthy cn = true → optTruthy ce = true →
      (put_file msg txt br sha cn ce).committer = some (cn.getD [], ce.getD [])) ∧
    (∀ (msg txt br : List Char) (sha cn : Option (List Char)),
      (put_file msg txt br sha cn none).committer = none) ∧
    (∀ (msg txt br : List Char) (sha ce : Option (List Char)),
      (put_file msg txt br sha none ce).committer = none) := by
  refine ⟨?_, ?_, ?_, ?_⟩
  · intro msg txt br sha cn ce
    unfold put_file
    by_cases hc : optTruthy cn = true ∧ optTruthy ce = true
    · rw [if_pos hc]
      simpa using hc
    · rw [if_neg hc]
      simpa using hc
  · intro msg txt br sha cn ce h1 h2
    simp [put_file, h1, h2]
  · intro msg txt br sha cn
    simp [put_file, optTruthy]
  · intro msg txt br sha ce
    simp [put_file, optTruthy]

end CheatingActivity
